import Mathlib

/-!
Verification development for the lite generation pipeline of
`api/scholarqa/lite` (quote normalization in `prompt_utils.py`, response
parsing and citation reconciliation in `response_parser.py`).

Strings are modelled as `List Char`.  Python `dict`s built by insertion are
modelled as association lists in insertion order.  Fallible dictionary
access (Python `KeyError`) is modelled with `Option`.
-/

/-- Model of Python whitespace for `str.strip` / regex `\s` on the ASCII
range (space, tab, newline, carriage return, vertical tab, form feed). -/
def isPySpace (c : Char) : Bool :=
  c = ' ' || c = '\t' || c = '\n' || c = '\r' || c = '\x0b' || c = '\x0c'

/-- `startsWith pat s` is true when `pat` is an initial segment of `s`. -/
def startsWith : List Char → List Char → Bool
  | [], _ => true
  | _ :: _, [] => false
  | p :: ps, c :: cs => p = c && startsWith ps cs

/-- Case-insensitive variant of `startsWith` (models regex `IGNORECASE`). -/
def startsWithCI : List Char → List Char → Bool
  | [], _ => true
  | _ :: _, [] => false
  | p :: ps, c :: cs => p.toLower = c.toLower && startsWithCI ps cs

/-- Python `str.lstrip()` on our whitespace model. -/
def stripLeadWS (s : List Char) : List Char := s.dropWhile isPySpace

/-- Python `str.strip()`: drop leading and trailing whitespace. -/
def stripWS (s : List Char) : List Char :=
  ((s.dropWhile isPySpace).reverse.dropWhile isPySpace).reverse

/-- Python `str.rstrip(".")`: drop all trailing literal periods. -/
def rstripDots (s : List Char) : List Char :=
  (s.reverse.dropWhile (fun c => c = '.')).reverse

/-- First index at which `pat` occurs in `s` (leftmost occurrence), as
used by Python `str.find` and by regex scanning. -/
def findSub (pat : List Char) : List Char → Option Nat
  | [] => if pat = [] then some 0 else none
  | c :: cs =>
    if startsWith pat (c :: cs) then some 0
    else (findSub pat cs).map (fun i => i + 1)

/-- Whether `pat` occurs somewhere in `s` as a contiguous substring. -/
def hasSub (pat : List Char) : List Char → Bool
  | [] => startsWith pat []
  | c :: cs => startsWith pat (c :: cs) || hasSub pat cs

/-- Does the string end in a literal period? -/
def endsDot : List Char → Bool
  | [] => false
  | [c] => c = '.'
  | _ :: c :: rest => endsDot (c :: rest)

/-- Python `sep.join`, for a separator and a list of strings. -/
def joinWith (sep : List Char) : List (List Char) → List Char
  | [] => []
  | [q] => q
  | q :: q2 :: rest => q ++ sep ++ joinWith sep (q2 :: rest)

/-- The fixed 3-character separator `"..."` used for combined quotes. -/
def sepTok : List Char := ['.', '.', '.']

/-- Model of the `anyascii` transliteration for a single character: ASCII
characters map to themselves; the non-ASCII punctuation exercised by this
pipeline (curly quotes, dashes, ellipsis, no-break space) maps to its
documented ASCII transliteration; other unmapped characters transliterate
to the empty string. -/
def anyasciiChar (c : Char) : List Char :=
  if c.toNat < 128 then [c]
  else if c = '‘' || c = '’' then ['\'']
  else if c = '“' || c = '”' then ['"']
  else if c = '–' || c = '—' then ['-']
  else if c = '…' then ['.', '.', '.']
  else if c = ' ' then [' ']
  else []

/-- Model of `anyascii(text)`: character-wise transliteration. -/
def anyasciiStr (s : List Char) : List Char := s.flatMap anyasciiChar

/-- `normalize_snippet_quote` from `prompt_utils.py`:
`anyascii(text.strip()).rstrip(".")`. -/
def normalize_snippet_quote (s : List Char) : List Char :=
  rstripDots (anyasciiStr (stripWS s))

/-- Modelled from the spec: the downstream re-split of a combined quote on
the exact 3-character separator, Python `str.split("...")` — leftmost,
non-overlapping scan.  The splitting itself lives outside `src/`; the spec
describes it as "splitting the result on that exact separator". -/
def splitDotsGo (acc : List Char) : List Char → List (List Char)
  | '.' :: '.' :: '.' :: rest => acc.reverse :: splitDotsGo [] rest
  | c :: cs => splitDotsGo (c :: acc) cs
  | [] => [acc.reverse]

/-- Python `combined.split("...")`. -/
def splitDots (s : List Char) : List (List Char) := splitDotsGo [] s

/-- Modelled from the spec: splitting on the separator "and stripping each
piece", the round-trip consumer side of the combined quote. -/
def splitQuote (s : List Char) : List (List Char) :=
  (splitDots s).map stripWS

/-- One retrieved snippet (a `sentences` entry of a row): `text` plus the
optional keys read with `sent.get(...)` in `prepare_references_data`.
`none` models an absent dictionary key. -/
structure Snippet where
  text : List Char
  char_offset : Option Int := none
  section_title : Option (List Char) := none
  pdf_hash : Option (List Char) := none
  sentence_offsets : Option (List (Int × Int)) := none
deriving DecidableEq, Repr

/-- One row of the scored dataframe consumed by `prepare_references_data`:
a reference string, the snippet list, and the abstract read with
`row.get("abstract", "")`. -/
structure Row where
  reference_string : List Char
  sentences : List Snippet
  abstract : List Char := []
deriving DecidableEq, Repr

/-- `{"quote": ..., "inline_citations": {}}` record per paper. -/
structure PerPaper where
  quote : List Char
  inline_citations : List (List Char × List Char) := []
deriving DecidableEq, Repr

/-- One `quotes_metadata` entry.  The source builds these as dictionaries;
`sentence_offsets` is `none` when the key is absent from the dictionary
(the abstract fallback does not write it). -/
structure QuoteMeta where
  quote : List Char
  section_title : List Char
  pdf_hash : List Char
  sentence_offsets : Option (List (Int × Int))
deriving DecidableEq, Repr

/-- Sort key `lambda s: s.get("char_offset", 0)`. -/
def offsetKey (s : Snippet) : Int := s.char_offset.getD 0

/-- Stable insertion of a snippet before the first element with an equal
or larger key (so an element inserted from the left of the original list
stays before later elements with the same key). -/
def insertSnippet (x : Snippet) : List Snippet → List Snippet
  | [] => [x]
  | y :: ys =>
    if offsetKey y < offsetKey x then y :: insertSnippet x ys
    else x :: y :: ys

/-- Model of Python `sorted(sentences, key=lambda s: s.get("char_offset", 0))`
(a stable sort by `offsetKey`). -/
def sortSnippets : List Snippet → List Snippet
  | [] => []
  | x :: xs => insertSnippet x (sortSnippets xs)

/-- `" ".join(sent["text"] for sent in sentences)` over the sorted
snippets, or the abstract fallback: the prompt-facing text of a row. -/
def derivedText (r : Row) : List Char :=
  if r.sentences = [] then r.abstract
  else joinWith [' '] ((sortSnippets r.sentences).map (fun s => s.text))

/-- The metadata entry built for one snippet in the snippet branch. -/
def snippetMeta (s : Snippet) : QuoteMeta where
  quote := normalize_snippet_quote s.text
  section_title := s.section_title.getD ("abstract".toList)
  pdf_hash := s.pdf_hash.getD []
  sentence_offsets := some (s.sentence_offsets.getD [])

/-- The per-snippet normalized quotes of a row, in sorted order. -/
def rowQuotes (r : Row) : List (List Char) :=
  (sortSnippets r.sentences).map (fun s => normalize_snippet_quote s.text)

/-- The `snippet_metadata` list built for a row. -/
def rowMetas (r : Row) : List QuoteMeta :=
  if r.sentences = [] then
    if r.abstract = [] then []
    else [{ quote := normalize_snippet_quote r.abstract
          , section_title := "abstract".toList
          , pdf_hash := []
          , sentence_offsets := none }]
  else (sortSnippets r.sentences).map snippetMeta

/-- The `combined_quote` built for a row: `"...".join(normalized_quotes)`
in the snippet branch, the normalized abstract (or `""`) otherwise. -/
def rowCombined (r : Row) : List Char :=
  if r.sentences = [] then
    if r.abstract = [] then [] else normalize_snippet_quote r.abstract
  else joinWith sepTok (rowQuotes r)

/-- Association-list lookup, modelling Python `dict` access on the
insertion-ordered mappings built by this pipeline. -/
def lookupA {α : Type} : List (List Char × α) → List Char → Option α
  | [], _ => none
  | (k, v) :: rest, key => if k = key then some v else lookupA rest key

/-- The keys of a mapping, in insertion order. -/
def keysOf {α : Type} (m : List (List Char × α)) : List (List Char) :=
  m.map (fun kv => kv.1)

/-- Python `key in mapping`. -/
def containsKey {α : Type} (m : List (List Char × α)) (k : List Char) : Bool :=
  (lookupA m k).isSome

/-- The row loop of `prepare_references_data`: skip rows whose reference
string was already emitted, emit into all three mappings when the derived
text is non-empty. -/
def prepGo :
    List Row →
    List (List Char × List Char) × List (List Char × PerPaper) ×
      List (List Char × List QuoteMeta) →
    List (List Char × List Char) × List (List Char × PerPaper) ×
      List (List Char × List QuoteMeta)
  | [], acc => acc
  | r :: rs, (refs, ppd, qmd) =>
    if containsKey refs r.reference_string then prepGo rs (refs, ppd, qmd)
    else if derivedText r = [] then prepGo rs (refs, ppd, qmd)
    else
      prepGo rs
        (refs ++ [(r.reference_string, derivedText r)],
         ppd ++ [(r.reference_string, { quote := rowCombined r })],
         qmd ++ [(r.reference_string, rowMetas r)])

/-- `prepare_references_data` from `prompt_utils.py`: the three aligned
mappings (references, per_paper_data, quotes_metadata). -/
def prepare_references_data (rows : List Row) :
    List (List Char × List Char) × List (List Char × PerPaper) ×
      List (List Char × List QuoteMeta) :=
  prepGo rows ([], [], [])

/-- Generic model of `re.sub` for patterns whose matches are non-empty: at
each position try `tryRepl`; on a match emit the replacement and continue
after the match, otherwise copy one character.  The fuel argument bounds
the number of scan steps; since every match consumes at least one
character, `s.length` steps always suffice. -/
def reSubGo (tryRepl : List Char → Option (List Char × List Char)) :
    Nat → List Char → List Char
  | 0, s => s
  | _ + 1, [] => []
  | fuel + 1, c :: cs =>
    match tryRepl (c :: cs) with
    | some (repl, rem) => repl ++ reSubGo tryRepl fuel rem
    | none => c :: reSubGo tryRepl fuel cs

/-- `re.sub` over the whole string. -/
def reSub (tryRepl : List Char → Option (List Char × List Char))
    (s : List Char) : List Char :=
  reSubGo tryRepl s.length s

/-- The literal `<think>` marker. -/
def thinkOpen : List Char := "<think>".toList

/-- The literal `</think>` marker. -/
def thinkClose : List Char := "</think>".toList

/-- A match of `<think>.*?</think>` (DOTALL, non-greedy) starting at the
head: the opening marker followed by the first closing marker after it.
Returns the empty replacement and the text after the closing marker. -/
def tryThink (s : List Char) : Option (List Char × List Char) :=
  if startsWith thinkOpen s then
    match findSub thinkClose (s.drop 7) with
    | some j => some ([], (s.drop 7).drop (j + 8))
    | none => none
  else none

/-- `re.sub(r"<think>.*?</think>", "", response, flags=re.DOTALL)`. -/
def removeThink (s : List Char) : List Char := reSub tryThink s

/-- `_strip_think_block` from `response_parser.py`. -/
def strip_think_block (s : List Char) : List Char := stripWS (removeThink s)

/-- The literal `SECTION;` marker (8 characters). -/
def marker : List Char := "SECTION;".toList

/-- The suffix of the response starting at the first `SECTION;` marker
(`response.find("SECTION;")` plus the slice), `none` when absent. -/
def dropToMarker : List Char → Option (List Char)
  | 'S' :: 'E' :: 'C' :: 'T' :: 'I' :: 'O' :: 'N' :: ';' :: rest =>
    some ('S' :: 'E' :: 'C' :: 'T' :: 'I' :: 'O' :: 'N' :: ';' :: rest)
  | _ :: cs => dropToMarker cs
  | [] => none

/-- Scanner for `re.split(r"SECTION;\s*", s)`: split at every leftmost
occurrence of the literal marker.  The `\s*` of the source pattern
additionally absorbs whitespace after each marker; that whitespace is
left at the head of the following part here, which is observably
identical because `_extract_sections_raw` strips every part before use
(and the absorbed whitespace can never hide a further marker, whose first
character `S` is not whitespace). -/
def splitMarkerGo (acc : List Char) : List Char → List (List Char)
  | 'S' :: 'E' :: 'C' :: 'T' :: 'I' :: 'O' :: 'N' :: ';' :: rest =>
    acc.reverse :: splitMarkerGo [] rest
  | c :: cs => splitMarkerGo (c :: acc) cs
  | [] => [acc.reverse]

/-- `re.split(r"SECTION;\s*", s)`, up to the leading whitespace of each
part (stripped before any use). -/
def splitMarker (s : List Char) : List (List Char) := splitMarkerGo [] s

/-- The number of occurrences of the literal `SECTION;` marker, counted
by a leftmost non-overlapping scan (the marker cannot overlap itself, so
this is the number of literal occurrences). -/
def countMarker : List Char → Nat
  | 'S' :: 'E' :: 'C' :: 'T' :: 'I' :: 'O' :: 'N' :: ';' :: rest =>
    countMarker rest + 1
  | _ :: cs => countMarker cs
  | [] => 0

/-- The marker-delimited fragments following each `SECTION;` marker (the
split parts other than the text before the first marker). -/
def markerFragments (s : List Char) : List (List Char) :=
  match dropToMarker s with
  | none => []
  | some t => (splitMarker t).drop 1

/-- `_extract_sections_raw` from `response_parser.py`: drop the text
before the first marker, split on the marker, keep the stripped non-empty
fragments. -/
def extract_sections_raw (s : List Char) : List (List Char) :=
  match dropToMarker s with
  | none => []
  | some t =>
    (splitMarker t).filterMap
      (fun p => if stripWS p = [] then none else some (stripWS p))

/-- First index of a `)` or `]` character. -/
def idxCloser : List Char → Option Nat
  | [] => none
  | c :: cs =>
    if c = ')' || c = ']' then some 0 else (idxCloser cs).map (fun i => i + 1)

/-- The literal `LLM`. -/
def llmLit : List Char := "LLM".toList

/-- The literal `Model`. -/
def modelLit : List Char := "Model".toList

/-- A match of `\s*[\(\[][^)\]]*(?:LLM|Model)[^)\]]*[\)\]]` starting at
the head: optional whitespace, an opening `(` or `[`, content up to the
first `)` or `]` that mentions `LLM` or `Model` (case-sensitive), and
that closer. -/
def tryParen (s : List Char) : Option (List Char × List Char) :=
  let w := (s.takeWhile isPySpace).length
  match s.drop w with
  | c :: r =>
    if c = '(' || c = '[' then
      match idxCloser r with
      | some k =>
        if hasSub llmLit (r.take k) || hasSub modelLit (r.take k) then
          some ([], r.drop (k + 1))
        else none
      | none => none
    else none
  | [] => none

/-- The literal `source`, matched case-insensitively. -/
def srcLit : List Char := "source".toList

/-- A match of `\s*\(\d+\s+sources?\)` (IGNORECASE) starting at the head. -/
def trySources (s : List Char) : Option (List Char × List Char) :=
  let w := (s.takeWhile isPySpace).length
  match s.drop w with
  | '(' :: r =>
    let d := r.takeWhile Char.isDigit
    if d = [] then none
    else
      let r1 := r.drop d.length
      let w2 := r1.takeWhile isPySpace
      if w2 = [] then none
      else
        let r2 := r1.drop w2.length
        if startsWithCI srcLit r2 then
          match r2.drop 6 with
          | ')' :: r3 => some ([], r3)
          | c2 :: ')' :: r3 =>
            if c2 = 's' || c2 = 'S' then some ([], r3) else none
          | _ => none
        else none
  | _ => none

/-- `_clean_tldr` from `response_parser.py`: the two substitutions
followed by `strip()`. -/
def clean_tldr (s : List Char) : List Char :=
  stripWS (reSub trySources (reSub tryParen s))

/-- The literal `(LLM Memory)` (12 characters), matched case-insensitively. -/
def llmMemLit : List Char := "(LLM Memory)".toList

/-- The replacement token `[LLM MEMORY | 2024]`. -/
def llmMemRepl : List Char := "[LLM MEMORY | 2024]".toList

/-- A match of `\(LLM Memory\)` (IGNORECASE) starting at the head. -/
def tryLlm (s : List Char) : Option (List Char × List Char) :=
  if startsWithCI llmMemLit s then some (llmMemRepl, s.drop 12) else none

/-- `_normalize_llm_memory` from `response_parser.py`. -/
def normalize_llm_memory (s : List Char) : List Char := reSub tryLlm s

/-- Sentence-ending punctuation `.` `!` `?`. -/
def isSentEnd (c : Char) : Bool := c = '.' || c = '!' || c = '?'

/-- The character class `[A-Z]`. -/
def isUpperAZ (c : Char) : Bool := 'A' ≤ c && c ≤ 'Z'

/-- A match of `([.!?])\n([A-Z])` starting at the head, replaced by
`\1\n\n\2`. -/
def tryPara (s : List Char) : Option (List Char × List Char) :=
  match s with
  | a :: b :: u :: rest =>
    if isSentEnd a && b = '\n' && isUpperAZ u then
      some ([a, '\n', '\n', u], rest)
    else none
  | _ => none

/-- `_normalize_paragraph_breaks` from `response_parser.py`. -/
def normalize_paragraph_breaks (s : List Char) : List Char := reSub tryPara s

/-- Python `s.split("\n", 1)`: the text before the first newline, and the
text after it when a newline exists. -/
def breakNewline : List Char → List Char × Option (List Char)
  | [] => ([], none)
  | c :: cs =>
    if c = '\n' then ([], some cs)
    else
      let p := breakNewline cs
      (c :: p.1, p.2)

/-- `_convert_section_format` from `response_parser.py`: returns the
(title, reassembled section text) pair. -/
def convert_section_format (raw : List Char) : List Char × List Char :=
  let p := breakNewline raw
  let title := stripWS p.1
  let remaining := match p.2 with | some r => stripWS r | none => []
  let q := breakNewline remaining
  let tldr := clean_tldr q.1
  let body0 := match q.2 with | some b => stripWS b | none => []
  let body := normalize_paragraph_breaks (normalize_llm_memory body0)
  (title, title ++ ('\n' :: tldr) ++ ('\n' :: body))

/-- `parse_sections` from `response_parser.py`: the section texts and the
section titles, in source order. -/
def parse_sections (resp : List Char) : List (List Char) × List (List Char) :=
  let raws := extract_sections_raw (strip_think_block resp)
  (raws.map (fun r => (convert_section_format r).2),
   raws.map (fun r => (convert_section_format r).1))

/-- The four capture groups of one `CITATION_PATTERN` match. -/
structure Citation where
  cid : List Char
  author : List Char
  year : List Char
  count : List Char
deriving DecidableEq, Repr

/-- First index of a `|` character. -/
def idxBar : List Char → Option Nat
  | [] => none
  | c :: cs =>
    if c = '|' then some 0 else (idxBar cs).map (fun i => i + 1)

/-- The text before the first `|` and the text after it. -/
def splitBar (s : List Char) : Option (List Char × List Char) :=
  (idxBar s).map (fun k => (s.take k, s.drop (k + 1)))

/-- The literal `Citations:` (10 characters). -/
def citLit : List Char := "Citations:".toList

/-- A match of `CITATION_PATTERN`
(`\[(\d+)\s*\|\s*([^|]+?)\s*\|\s*(\d+)\s*\|\s*Citations:\s*(\d+)\]`)
starting at the head of `s`: the four groups and the remainder after the
match.  The author group is the content between the first two `|`
separators with surrounding whitespace absorbed by the adjacent `\s*`
(when that content is all whitespace, the non-greedy group keeps a single
whitespace character). -/
def matchCitation (s : List Char) : Option (Citation × List Char) :=
  match s with
  | '[' :: t =>
    let cid := t.takeWhile Char.isDigit
    if cid = [] then none
    else
      match stripLeadWS (t.drop cid.length) with
      | '|' :: t2 =>
        match splitBar t2 with
        | some (content, t3) =>
          if content = [] then none
          else
            let author :=
              if stripWS content = [] then content.drop (content.length - 1)
              else stripWS content
            let t3w := stripLeadWS t3
            let year := t3w.takeWhile Char.isDigit
            if year = [] then none
            else
              match stripLeadWS (t3w.drop year.length) with
              | '|' :: t5 =>
                let t6 := stripLeadWS t5
                if startsWith citLit t6 then
                  let t7 := stripLeadWS (t6.drop 10)
                  let cnt := t7.takeWhile Char.isDigit
                  if cnt = [] then none
                  else
                    match t7.drop cnt.length with
                    | ']' :: t8 =>
                      some ({ cid := cid, author := author, year := year,
                              count := cnt }, t8)
                    | _ => none
                else none
              | _ => none
        | none => none
      | _ => none
  | _ => none

/-- The scan of `CITATION_PATTERN.findall`: leftmost non-overlapping
matches; scanning resumes after each match.  Every match consumes at
least one character, so `s.length` steps of fuel always suffice. -/
def findAllGo : Nat → List Char → List Citation
  | 0, _ => []
  | _ + 1, [] => []
  | fuel + 1, c :: cs =>
    match matchCitation (c :: cs) with
    | some (cit, rem) => cit :: findAllGo fuel rem
    | none => findAllGo fuel cs

/-- `CITATION_PATTERN.findall(text)`. -/
def findAllCitations (s : List Char) : List Citation :=
  findAllGo s.length s

/-- The rebuilt canonical key
`anyascii(f"[{corpus_id} | {author_str.strip()} | {year} | Citations: {citation_count}]")`. -/
def citationKey (cit : Citation) : List Char :=
  anyasciiStr (('[' :: cit.cid) ++ " | ".toList ++ stripWS cit.author ++
    " | ".toList ++ cit.year ++ " | Citations: ".toList ++ cit.count ++ [']'])

/-- The reconciliation loop of `filter_per_paper_summaries`: walk the
extracted citations, skip corpus ids already seen, look the rebuilt key
up in `per_paper_data` and, when found, copy the paired entries; the
`all_quotes_metadata[citation_key]` access raises `KeyError` (modelled as
`none`) when that key is missing there. -/
def filterLoop (ppd : List (List Char × PerPaper))
    (qmd : List (List Char × List QuoteMeta)) :
    List Citation → List (List Char) →
    List (List Char × PerPaper) → List (List Char × List QuoteMeta) →
    Option (List (List Char × PerPaper) × List (List Char × List QuoteMeta))
  | [], _, o1, o2 => some (o1, o2)
  | cit :: rest, seen, o1, o2 =>
    if seen.contains cit.cid then filterLoop ppd qmd rest seen o1 o2
    else
      match lookupA ppd (citationKey cit) with
      | none => filterLoop ppd qmd rest (cit.cid :: seen) o1 o2
      | some v =>
        match lookupA qmd (citationKey cit) with
        | none => none
        | some w =>
          filterLoop ppd qmd rest (cit.cid :: seen)
            (o1 ++ [(citationKey cit, v)]) (o2 ++ [(citationKey cit, w)])

/-- `filter_per_paper_summaries` from `response_parser.py`. -/
def filter_per_paper_summaries (texts : List (List Char))
    (ppd : List (List Char × PerPaper))
    (qmd : List (List Char × List QuoteMeta)) :
    Option (List (List Char × PerPaper) × List (List Char × List QuoteMeta)) :=
  filterLoop ppd qmd (findAllCitations (joinWith ['\n'] texts)) [] [] []

/-- The deduplication of citations by corpus-id group, keeping the first
occurrence, relative to a set of already-seen ids. -/
def dedupSeen : List Citation → List (List Char) → List Citation
  | [], _ => []
  | c :: rest, seen =>
    if seen.contains c.cid then dedupSeen rest seen
    else c :: dedupSeen rest (c.cid :: seen)

/-- The per-paper entries that the reconciliation loop emits for a list
of (already deduplicated) citations: those whose rebuilt key is found in
`per_paper_data`, paired with the found value. -/
def emitP (ppd : List (List Char × PerPaper)) (cits : List Citation) :
    List (List Char × PerPaper) :=
  cits.filterMap
    (fun c => (lookupA ppd (citationKey c)).map (fun v => (citationKey c, v)))

/-- The quote-metadata entries that the reconciliation loop emits: keys
guarded by presence in `per_paper_data`, values from
`all_quotes_metadata`. -/
def emitQ (ppd : List (List Char × PerPaper))
    (qmd : List (List Char × List QuoteMeta)) (cits : List Citation) :
    List (List Char × List QuoteMeta) :=
  cits.filterMap
    (fun c =>
      match lookupA ppd (citationKey c) with
      | some _ => (lookupA qmd (citationKey c)).map (fun w => (citationKey c, w))
      | none => none)

theorem lookupA_nil {α : Type} (k : List Char) :
    lookupA ([] : List (List Char × α)) k = none := rfl

theorem lookupA_cons {α : Type} (k0 : List Char) (v0 : α)
    (rest : List (List Char × α)) (k : List Char) :
    lookupA ((k0, v0) :: rest) k = if k0 = k then some v0 else lookupA rest k :=
  rfl

theorem lookupA_append {α : Type} (xs ys : List (List Char × α)) (k : List Char) :
    lookupA (xs ++ ys) k = (lookupA xs k).or (lookupA ys k) := by
  induction xs with
  | nil => simp [lookupA_nil]
  | cons p rest ih =>
    obtain ⟨k0, v0⟩ := p
    by_cases h : k0 = k
    · simp [lookupA_cons, h]
    · simp [lookupA_cons, h, ih]

theorem keysOf_append {α : Type} (xs ys : List (List Char × α)) :
    keysOf (xs ++ ys) = keysOf xs ++ keysOf ys := by
  simp [keysOf]

theorem mem_keysOf {α : Type} (m : List (List Char × α)) (k : List Char) :
    k ∈ keysOf m ↔ containsKey m k = true := by
  induction m with
  | nil => simp [keysOf, containsKey, lookupA]
  | cons p rest ih =>
    obtain ⟨k0, v0⟩ := p
    by_cases h : k0 = k
    · subst h
      constructor
      · intro _
        show (lookupA ((k0, v0) :: rest) k0).isSome = true
        rw [lookupA_cons, if_pos rfl]
        rfl
      · intro _
        simp only [keysOf, List.map_cons, List.mem_cons]
        exact Or.inl trivial
    · simp only [keysOf, List.map_cons, List.mem_cons, containsKey,
        lookupA_cons, if_neg h] at ih ⊢
      constructor
      · intro hk
        rcases hk with hk | hk
        · exact absurd hk.symm h
        · exact ih.mp hk
      · intro hk
        exact Or.inr (ih.mpr hk)

theorem containsKey_eq_of_keysOf_eq {α β : Type} (a : List (List Char × α))
    (b : List (List Char × β)) (h : keysOf a = keysOf b) (k : List Char) :
    containsKey a k = containsKey b k := by
  rw [Bool.eq_iff_iff, ← mem_keysOf, ← mem_keysOf, h]

theorem dropWhile_head_false {p : Char → Bool} {l t : List Char} {c : Char}
    (h : l.dropWhile p = c :: t) : p c = false := by
  induction l with
  | nil => simp [List.dropWhile] at h
  | cons a as ih =>
    rw [List.dropWhile_cons] at h
    by_cases hp : p a
    · rw [if_pos hp] at h
      exact ih h
    · rw [if_neg hp] at h
      obtain ⟨rfl, -⟩ := List.cons.inj h
      simpa using hp

theorem endsDot_concat (xs : List Char) (c : Char) :
    endsDot (xs ++ [c]) = decide (c = '.') := by
  induction xs with
  | nil => simp [endsDot]
  | cons a xs ih =>
    cases xs with
    | nil => simp [endsDot]
    | cons b xs2 => simpa [endsDot] using ih

theorem endsDot_rstripDots (s : List Char) : endsDot (rstripDots s) = false := by
  unfold rstripDots
  cases h : s.reverse.dropWhile (fun c => decide (c = '.')) with
  | nil => simp [endsDot]
  | cons c t =>
    rw [List.reverse_cons, endsDot_concat]
    exact dropWhile_head_false h

theorem normalize_endsDot (s : List Char) :
    endsDot (normalize_snippet_quote s) = false :=
  endsDot_rstripDots _

theorem endsDot_tail {a : Char} {q : List Char} (he : endsDot (a :: q) = false) :
    endsDot q = false := by
  cases q with
  | nil => simp [endsDot]
  | cons b t => simpa [endsDot] using he

theorem splitDotsGo_nil (acc : List Char) : splitDotsGo acc [] = [acc.reverse] :=
  rfl

theorem splitDotsGo_sep (acc rest : List Char) :
    splitDotsGo acc ('.' :: '.' :: '.' :: rest) =
      acc.reverse :: splitDotsGo [] rest :=
  rfl

theorem splitDotsGo_cons (acc : List Char) (c : Char) (cs : List Char)
    (h : (c = '.' && startsWith ['.', '.'] cs) = false) :
    splitDotsGo acc (c :: cs) = splitDotsGo (c :: acc) cs := by
  rw [splitDotsGo.eq_def]
  split
  · rename_i rest heq
    obtain ⟨hc, hcs⟩ := List.cons.inj heq
    subst hc
    subst hcs
    simp [startsWith] at h
  · rename_i c2 cs2 hne heq
    obtain ⟨hc, hcs⟩ := List.cons.inj heq
    subst hc
    subst hcs
    rfl
  · rename_i heq
    simp at heq

theorem splitDotsGo_no_sep (q : List Char) :
    ∀ acc, hasSub sepTok q = false → splitDotsGo acc q = [acc.reverse ++ q] := by
  induction q with
  | nil =>
    intro acc _
    simp [splitDotsGo_nil]
  | cons c cs ih =>
    intro acc h
    simp only [hasSub, Bool.or_eq_false_iff] at h
    obtain ⟨h1, h2⟩ := h
    have hcond : (c = '.' && startsWith ['.', '.'] cs) = false := by
      by_cases hc : c = '.'
      · subst hc
        have : startsWith sepTok ('.' :: cs) = startsWith ['.', '.'] cs := by
          simp [sepTok, startsWith]
        rw [this] at h1
        simp [h1]
      · simp [hc]
    rw [splitDotsGo_cons acc c cs hcond]
    rw [ih (c :: acc) h2]
    simp [List.reverse_cons, List.append_assoc]

theorem splitDotsGo_boundary (q : List Char) :
    ∀ acc r, hasSub sepTok q = false → endsDot q = false →
      splitDotsGo acc (q ++ sepTok ++ r) =
        (acc.reverse ++ q) :: splitDotsGo [] r := by
  induction q with
  | nil =>
    intro acc r _ _
    show splitDotsGo acc ('.' :: '.' :: '.' :: r) =
      (acc.reverse ++ []) :: splitDotsGo [] r
    rw [splitDotsGo_sep]
    simp
  | cons a q' ih =>
    intro acc r h he
    simp only [hasSub, Bool.or_eq_false_iff] at h
    obtain ⟨h1, h2⟩ := h
    have he' : endsDot q' = false := endsDot_tail he
    have hcond : (a = '.' && startsWith ['.', '.'] (q' ++ sepTok ++ r)) = false := by
      by_cases ha : a = '.'
      · subst ha
        cases q' with
        | nil => simp [endsDot] at he
        | cons b q'' =>
          by_cases hb : b = '.'
          · subst hb
            cases q'' with
            | nil => simp [endsDot] at he
            | cons d t =>
              by_cases hd : d = '.'
              · subst hd
                simp [startsWith, sepTok] at h1
              · simp only [List.cons_append, List.append_assoc]
                simp [startsWith, hd, Ne.symm hd]
          · simp only [List.cons_append]
            simp [startsWith, hb, Ne.symm hb]
      · simp [ha]
    show splitDotsGo acc (a :: (q' ++ sepTok ++ r)) = _
    rw [splitDotsGo_cons acc a (q' ++ sepTok ++ r) hcond]
    rw [ih (a :: acc) r h2 he']
    simp [List.reverse_cons, List.append_assoc]

theorem splitDots_joinWith (qs : List (List Char)) (hne : qs ≠ [])
    (h : ∀ q ∈ qs, hasSub sepTok q = false ∧ endsDot q = false) :
    splitDots (joinWith sepTok qs) = qs := by
  induction qs with
  | nil => exact absurd rfl hne
  | cons q qs' ih =>
    cases qs' with
    | nil =>
      have hq := h q (by simp)
      show splitDotsGo [] q = [q]
      rw [splitDotsGo_no_sep q [] hq.1]
      simp
    | cons q2 rest =>
      have hq := h q (by simp)
      show splitDotsGo [] (q ++ sepTok ++ joinWith sepTok (q2 :: rest)) =
        q :: q2 :: rest
      rw [splitDotsGo_boundary q [] (joinWith sepTok (q2 :: rest)) hq.1 hq.2]
      have hrest := ih (by simp) (fun p hp => h p (List.mem_cons_of_mem _ hp))
      show ([].reverse ++ q) :: splitDotsGo [] (joinWith sepTok (q2 :: rest)) =
        q :: q2 :: rest
      rw [show (([] : List Char).reverse ++ q) = q by simp]
      exact congrArg (fun l => q :: l) hrest

theorem anyasciiChar_ascii (c : Char) : ∀ d ∈ anyasciiChar c, d.toNat < 128 := by
  intro d hd
  unfold anyasciiChar at hd
  split_ifs at hd with h1 h2 h3 h4 h5 h6
  · rw [List.mem_singleton] at hd
    subst hd
    exact h1
  · rw [List.mem_singleton] at hd
    subst hd
    decide
  · rw [List.mem_singleton] at hd
    subst hd
    decide
  · rw [List.mem_singleton] at hd
    subst hd
    decide
  · simp only [List.mem_cons, List.mem_singleton] at hd
    rcases hd with rfl | hd
    · decide
    · rcases hd with rfl | hd
      · decide
      · rcases hd with rfl | hd
        · decide
        · simp at hd
  · rw [List.mem_singleton] at hd
    subst hd
    decide
  · simp at hd

theorem anyasciiStr_ascii (s : List Char) : ∀ d ∈ anyasciiStr s, d.toNat < 128 := by
  induction s with
  | nil => simp [anyasciiStr]
  | cons c cs ih =>
    intro d hd
    rw [show anyasciiStr (c :: cs) = anyasciiChar c ++ anyasciiStr cs from rfl,
      List.mem_append] at hd
    rcases hd with hd | hd
    · exact anyasciiChar_ascii c d hd
    · exact ih d hd

theorem anyasciiStr_id_of_ascii (s : List Char) (h : ∀ c ∈ s, c.toNat < 128) :
    anyasciiStr s = s := by
  induction s with
  | nil => rfl
  | cons c cs ih =>
    rw [show anyasciiStr (c :: cs) = anyasciiChar c ++ anyasciiStr cs from rfl]
    rw [show anyasciiChar c = [c] from if_pos (h c (List.mem_cons_self c cs))]
    rw [ih (fun d hd => h d (List.mem_cons_of_mem c hd))]
    rfl

theorem mem_of_mem_rstripDots {d : Char} {s : List Char}
    (hd : d ∈ rstripDots s) : d ∈ s := by
  unfold rstripDots at hd
  rw [List.mem_reverse] at hd
  have := List.dropWhile_subset (l := s.reverse) (fun c => decide (c = '.')) hd
  exact List.mem_reverse.mp this

theorem dropWhile_idem (p : Char → Bool) (l : List Char) :
    List.dropWhile p (List.dropWhile p l) = List.dropWhile p l := by
  cases h : l.dropWhile p with
  | nil => rfl
  | cons c t =>
    rw [List.dropWhile_cons, if_neg]
    rw [dropWhile_head_false h]
    simp

theorem rstripDots_idem (s : List Char) :
    rstripDots (rstripDots s) = rstripDots s := by
  unfold rstripDots
  rw [List.reverse_reverse, dropWhile_idem]

/-- Claim C5 (counterexample): quote normalization is not idempotent on
every string — `"a ."` strips to `"a ."`, transliterates unchanged, and
loses its trailing period leaving the trailing space `"a "`, which a
second normalization also strips. -/
theorem claim_C5_counterexample :
    normalize_snippet_quote (normalize_snippet_quote ("a .".toList)) ≠
      normalize_snippet_quote ("a .".toList) := by
  decide

/-- Claim C5 (amended): quote normalization is idempotent on every string
whose normalized form carries no leading or trailing whitespace (stripping
the trailing periods can expose trailing whitespace, which breaks
idempotence, as in the counterexample). -/
theorem claim_C5 (s : List Char)
    (h : stripWS (normalize_snippet_quote s) = normalize_snippet_quote s) :
    normalize_snippet_quote (normalize_snippet_quote s) =
      normalize_snippet_quote s := by
  have hascii : ∀ c ∈ normalize_snippet_quote s, c.toNat < 128 := by
    intro c hc
    have hc2 : c ∈ anyasciiStr (stripWS s) := mem_of_mem_rstripDots hc
    exact anyasciiStr_ascii _ c hc2
  show rstripDots (anyasciiStr (stripWS (normalize_snippet_quote s))) =
    normalize_snippet_quote s
  rw [h]
  rw [anyasciiStr_id_of_ascii (normalize_snippet_quote s) hascii]
  exact rstripDots_idem _

/-- Witness for claim C5 at the concrete input `"abc."`. -/
theorem claim_C5_witness :
    stripWS (normalize_snippet_quote ("abc.".toList)) =
        normalize_snippet_quote ("abc.".toList) ∧
      normalize_snippet_quote (normalize_snippet_quote ("abc.".toList)) =
        normalize_snippet_quote ("abc.".toList) :=
  ⟨by decide, claim_C5 _ (by decide)⟩

/-- Claim C1 (counterexample): the round-trip law fails on texts whose
normalized form contains the separator itself — for `a = "x...y"` and
`b = "z"` the join `"x...y...z"` splits into three pieces, not the two
normalized inputs. -/
theorem claim_C1_counterexample :
    splitQuote (joinWith sepTok
        [normalize_snippet_quote ("x...y".toList),
         normalize_snippet_quote ("z".toList)]) ≠
      [normalize_snippet_quote ("x...y".toList),
       normalize_snippet_quote ("z".toList)] := by
  decide

/-- Claim C1 (amended): for every non-empty list of input texts whose
normalized forms contain no occurrence of the 3-character separator and
carry no leading or trailing whitespace, joining the normalized forms
with `"..."`, splitting on that exact separator and stripping each piece
reproduces exactly the list of normalized forms. -/
theorem claim_C1 (ts : List (List Char)) (hne : ts ≠ [])
    (h : ∀ t ∈ ts, hasSub sepTok (normalize_snippet_quote t) = false ∧
      stripWS (normalize_snippet_quote t) = normalize_snippet_quote t) :
    splitQuote (joinWith sepTok (ts.map normalize_snippet_quote)) =
      ts.map normalize_snippet_quote := by
  have hmap : ts.map normalize_snippet_quote ≠ [] := by
    cases ts with
    | nil => exact absurd rfl hne
    | cons t ts' => simp
  have hsplit : splitDots (joinWith sepTok (ts.map normalize_snippet_quote)) =
      ts.map normalize_snippet_quote := by
    apply splitDots_joinWith _ hmap
    intro q hq
    obtain ⟨t, ht, rfl⟩ := List.mem_map.mp hq
    exact ⟨(h t ht).1, normalize_endsDot t⟩
  unfold splitQuote
  rw [hsplit]
  have hfix : ∀ q ∈ ts.map normalize_snippet_quote, stripWS q = q := by
    intro q hq
    obtain ⟨t, ht, rfl⟩ := List.mem_map.mp hq
    exact (h t ht).2
  calc (ts.map normalize_snippet_quote).map stripWS
      = (ts.map normalize_snippet_quote).map id := List.map_congr_left hfix
    _ = ts.map normalize_snippet_quote := List.map_id _

/-- Witness for claim C1 at the concrete inputs `"a."` and `"b"` (a
trailing period and a plain word). -/
theorem claim_C1_witness :
    (["a.".toList, "b".toList] : List (List Char)) ≠ [] ∧
      (∀ t ∈ (["a.".toList, "b".toList] : List (List Char)),
        hasSub sepTok (normalize_snippet_quote t) = false ∧
          stripWS (normalize_snippet_quote t) = normalize_snippet_quote t) ∧
      splitQuote (joinWith sepTok
          (["a.".toList, "b".toList].map normalize_snippet_quote)) =
        ["a.".toList, "b".toList].map normalize_snippet_quote :=
  ⟨by decide, by decide, claim_C1 _ (by decide) (by decide)⟩

/-- Claim C2 (code evaluation): `_clean_tldr` removes the
`(Model-Generated)`, `(LLM Memory)`, `(1 source)` and `(19 sources)`
annotations and leaves a plain summary unchanged, but returns a summary
containing a plain inline citation bracket
`[123 | Smith et al. | 2024 | Citations: 5]` byte-for-byte unchanged: its
first pattern only removes bracketed fragments that mention `LLM` or
`Model`, which a citation bracket does not, contradicting the
repository's own tests (`test_removes_single_inline_citation` and
friends in `tests/lite/test_response_parser.py`). -/
theorem claim_C2 :
    clean_tldr ("TLDR; Summary. (Model-Generated)".toList) =
        "TLDR; Summary.".toList ∧
      clean_tldr ("TLDR; Summary. (LLM Memory)".toList) =
        "TLDR; Summary.".toList ∧
      clean_tldr ("TLDR; Summary. (1 source)".toList) =
        "TLDR; Summary.".toList ∧
      clean_tldr ("TLDR; Summary. (19 sources)".toList) =
        "TLDR; Summary.".toList ∧
      clean_tldr ("TLDR; A plain summary with no citations.".toList) =
        "TLDR; A plain summary with no citations.".toList ∧
      clean_tldr ("TLDR; Summary [123 | Smith et al. | 2024 | Citations: 5].".toList) =
        "TLDR; Summary [123 | Smith et al. | 2024 | Citations: 5].".toList := by
  refine ⟨by decide, by decide, by decide, by decide, by decide, by decide⟩

/-- Claim C10: the token `[LLM MEMORY | 2024]` substituted by
`_normalize_llm_memory` is never matched by `CITATION_PATTERN` (its first
field is not all digits and its fourth field is not `Citations: N`), so a
body whose only bracketed token is a normalized LLM-memory annotation
contributes no citation, and `filter_per_paper_summaries` on such a
section emits empty outputs whatever the per-paper inputs are. -/
theorem claim_C10 :
    findAllCitations llmMemRepl = [] ∧
      normalize_llm_memory
          ("Known from training (LLM Memory), see above.".toList) =
        "Known from training [LLM MEMORY | 2024], see above.".toList ∧
      ∀ (ppd : List (List Char × PerPaper))
        (qmd : List (List Char × List QuoteMeta)),
        filter_per_paper_summaries
          [normalize_llm_memory
            ("Known from training (LLM Memory), see above.".toList)]
          ppd qmd = some ([], []) := by
  refine ⟨by decide, by decide, ?_⟩
  intro ppd qmd
  have h : findAllCitations (joinWith ['\n']
      [normalize_llm_memory
        ("Known from training (LLM Memory), see above.".toList)]) = [] := by
    decide
  unfold filter_per_paper_summaries
  rw [h]
  rfl

theorem countMarker_nil : countMarker [] = 0 := rfl

theorem countMarker_marker (rest : List Char) :
    countMarker ('S' :: 'E' :: 'C' :: 'T' :: 'I' :: 'O' :: 'N' :: ';' :: rest) =
      countMarker rest + 1 := rfl

theorem countMarker_cons (c : Char) (cs : List Char)
    (hne : ∀ rest, c = 'S' →
      cs = 'E' :: 'C' :: 'T' :: 'I' :: 'O' :: 'N' :: ';' :: rest → False) :
    countMarker (c :: cs) = countMarker cs := by
  rw [countMarker.eq_def]
  split
  · rename_i rest heq
    obtain ⟨hc, hcs⟩ := List.cons.inj heq
    exact (hne rest hc hcs).elim
  · rename_i c2 cs2 hne2 heq
    obtain ⟨hc, hcs⟩ := List.cons.inj heq
    subst hc
    subst hcs
    rfl
  · rename_i heq
    simp at heq

theorem splitMarkerGo_marker (acc rest : List Char) :
    splitMarkerGo acc
        ('S' :: 'E' :: 'C' :: 'T' :: 'I' :: 'O' :: 'N' :: ';' :: rest) =
      acc.reverse :: splitMarkerGo [] rest := rfl

theorem splitMarkerGo_cons (acc : List Char) (c : Char) (cs : List Char)
    (hne : ∀ rest, c = 'S' →
      cs = 'E' :: 'C' :: 'T' :: 'I' :: 'O' :: 'N' :: ';' :: rest → False) :
    splitMarkerGo acc (c :: cs) = splitMarkerGo (c :: acc) cs := by
  rw [splitMarkerGo.eq_def]
  split
  · rename_i rest heq
    obtain ⟨hc, hcs⟩ := List.cons.inj heq
    exact (hne rest hc hcs).elim
  · rename_i c2 cs2 hne2 heq
    obtain ⟨hc, hcs⟩ := List.cons.inj heq
    subst hc
    subst hcs
    rfl
  · rename_i heq
    simp at heq

theorem splitMarkerGo_length (acc s : List Char) :
    (splitMarkerGo acc s).length = countMarker s + 1 := by
  induction acc, s using splitMarkerGo.induct with
  | case1 acc rest ih =>
    rw [splitMarkerGo_marker, countMarker_marker, List.length_cons, ih]
  | case2 acc c cs hne ih =>
    rw [splitMarkerGo_cons acc c cs hne, countMarker_cons c cs hne, ih]
  | case3 acc => rfl

theorem countMarker_of_dropToMarker_none (s : List Char)
    (h : dropToMarker s = none) : countMarker s = 0 := by
  induction s using dropToMarker.induct with
  | case1 rest => simp [dropToMarker] at h
  | case2 c cs hne ih =>
    rw [dropToMarker.eq_def] at h
    rw [countMarker_cons c cs hne]
    apply ih
    revert h
    split
    · rename_i rest heq
      obtain ⟨hc, hcs⟩ := List.cons.inj heq
      exact (hne rest hc hcs).elim
    · rename_i c2 cs2 hne2 heq
      obtain ⟨hc, hcs⟩ := List.cons.inj heq
      subst hc
      subst hcs
      exact fun h => h
    · rename_i heq
      simp at heq
  | case3 => rfl

theorem dropToMarker_cons (c : Char) (cs : List Char)
    (hne : ∀ rest, c = 'S' →
      cs = 'E' :: 'C' :: 'T' :: 'I' :: 'O' :: 'N' :: ';' :: rest → False) :
    dropToMarker (c :: cs) = dropToMarker cs := by
  rw [dropToMarker.eq_def]
  split
  · rename_i rest heq
    obtain ⟨hc, hcs⟩ := List.cons.inj heq
    exact (hne rest hc hcs).elim
  · rename_i c2 cs2 hne2 heq
    obtain ⟨hc, hcs⟩ := List.cons.inj heq
    subst hc
    subst hcs
    rfl
  · rename_i heq
    simp at heq

theorem dropToMarker_shape (s t : List Char) (h : dropToMarker s = some t) :
    ∃ rest, t = 'S' :: 'E' :: 'C' :: 'T' :: 'I' :: 'O' :: 'N' :: ';' :: rest := by
  induction s using dropToMarker.induct with
  | case1 rest =>
    refine ⟨rest, ?_⟩
    have : dropToMarker
        ('S' :: 'E' :: 'C' :: 'T' :: 'I' :: 'O' :: 'N' :: ';' :: rest) =
        some ('S' :: 'E' :: 'C' :: 'T' :: 'I' :: 'O' :: 'N' :: ';' :: rest) := rfl
    rw [this] at h
    exact (Option.some.inj h).symm
  | case2 c cs hne ih =>
    rw [dropToMarker_cons c cs hne] at h
    exact ih h
  | case3 => simp [dropToMarker] at h

theorem countMarker_dropToMarker (s t : List Char) (h : dropToMarker s = some t) :
    countMarker t = countMarker s := by
  induction s using dropToMarker.induct with
  | case1 rest =>
    have : dropToMarker
        ('S' :: 'E' :: 'C' :: 'T' :: 'I' :: 'O' :: 'N' :: ';' :: rest) =
        some ('S' :: 'E' :: 'C' :: 'T' :: 'I' :: 'O' :: 'N' :: ';' :: rest) := rfl
    rw [this] at h
    rw [← Option.some.inj h]
  | case2 c cs hne ih =>
    rw [dropToMarker_cons c cs hne] at h
    rw [countMarker_cons c cs hne]
    exact ih h
  | case3 => simp [dropToMarker] at h

theorem filterMap_strip_length (l : List (List Char))
    (h : ∀ p ∈ l, stripWS p ≠ []) :
    (l.filterMap
      (fun p => if stripWS p = [] then none else some (stripWS p))).length =
      l.length := by
  induction l with
  | nil => rfl
  | cons p t ih =>
    rw [List.filterMap_cons]
    rw [show (if stripWS p = [] then none else some (stripWS p)) =
      some (stripWS p) from if_neg (h p (List.mem_cons_self p t))]
    rw [List.length_cons, List.length_cons]
    rw [ih (fun q hq => h q (List.mem_cons_of_mem p hq))]

theorem extract_sections_length (s : List Char) (n : Nat)
    (hc : countMarker s = n) (hn : 0 < n)
    (hfr : ∀ p ∈ markerFragments s, stripWS p ≠ []) :
    (extract_sections_raw s).length = n := by
  cases hd : dropToMarker s with
  | none =>
    rw [countMarker_of_dropToMarker_none s hd] at hc
    omega
  | some t =>
    obtain ⟨rest, rfl⟩ := dropToMarker_shape s t hd
    have hsm : splitMarker
        ('S' :: 'E' :: 'C' :: 'T' :: 'I' :: 'O' :: 'N' :: ';' :: rest) =
        [] :: splitMarkerGo [] rest := by
      unfold splitMarker
      rw [splitMarkerGo_marker]
      rfl
    have hfr2 : ∀ p ∈ splitMarkerGo [] rest, stripWS p ≠ [] := by
      have hmf : markerFragments s = splitMarkerGo [] rest := by
        simp only [markerFragments, hd]
        rw [hsm]
        rfl
      rw [hmf] at hfr
      exact hfr
    have hcm : countMarker rest + 1 = n := by
      rw [← countMarker_dropToMarker s _ hd] at hc
      rw [countMarker_marker] at hc
      exact hc
    simp only [extract_sections_raw, hd]
    rw [hsm, List.filterMap_cons_none (by rfl), filterMap_strip_length _ hfr2,
      splitMarkerGo_length, hcm]

/-- Claim C4 (counterexample): a response consisting of six adjacent
`SECTION;` markers followed by one non-empty fragment contains exactly 6
occurrences of the marker, yet `parse_sections` returns a single section
(the five empty fragments between adjacent markers are discarded). -/
theorem claim_C4_counterexample :
    countMarker
        ("SECTION;SECTION;SECTION;SECTION;SECTION;SECTION;x".toList) = 6 ∧
      (parse_sections
        ("SECTION;SECTION;SECTION;SECTION;SECTION;SECTION;x".toList)).1.length
        = 1 ∧
      (parse_sections
        ("SECTION;SECTION;SECTION;SECTION;SECTION;SECTION;x".toList)).2.length
        = 1 := by
  refine ⟨by decide, by decide, by decide⟩

/-- Claim C4 (amended): for every response whose think-stripped form
contains exactly 6 occurrences of the literal marker `SECTION;` and in
which every fragment following a marker (up to the next marker or the
end) contains a non-whitespace character, `parse_sections` returns
exactly 6 section texts and exactly 6 titles, in source order. -/
theorem claim_C4 (resp : List Char)
    (h6 : countMarker (strip_think_block resp) = 6)
    (hfr : ∀ p ∈ markerFragments (strip_think_block resp), stripWS p ≠ []) :
    (parse_sections resp).1.length = 6 ∧ (parse_sections resp).2.length = 6 := by
  have key : (extract_sections_raw (strip_think_block resp)).length = 6 :=
    extract_sections_length _ 6 h6 (by omega) hfr
  constructor
  · simp only [parse_sections, List.length_map]
    exact key
  · simp only [parse_sections, List.length_map]
    exact key

/-- Witness for claim C4 at a concrete six-section response. -/
theorem claim_C4_witness :
    countMarker (strip_think_block
        ("SECTION; a SECTION; b SECTION; c SECTION; d SECTION; e SECTION; f".toList))
        = 6 ∧
      (∀ p ∈ markerFragments (strip_think_block
        ("SECTION; a SECTION; b SECTION; c SECTION; d SECTION; e SECTION; f".toList)),
        stripWS p ≠ []) ∧
      (parse_sections
        ("SECTION; a SECTION; b SECTION; c SECTION; d SECTION; e SECTION; f".toList)).1.length
        = 6 ∧
      (parse_sections
        ("SECTION; a SECTION; b SECTION; c SECTION; d SECTION; e SECTION; f".toList)).2.length
        = 6 :=
  ⟨by decide, by decide, claim_C4 _ (by decide) (by decide)⟩

theorem containsKey_append_single {α : Type} (xs : List (List Char × α))
    (k0 : List Char) (v0 : α) (k : List Char) :
    containsKey (xs ++ [(k0, v0)]) k =
      (containsKey xs k || decide (k0 = k)) := by
  unfold containsKey
  rw [lookupA_append]
  cases h : lookupA xs k with
  | none =>
    by_cases hk : k0 = k
    · simp [Option.or, lookupA_cons, hk]
    · simp [Option.or, lookupA_cons, lookupA_nil, hk]
  | some v => simp [Option.or]

theorem insertSnippet_length (x : Snippet) (l : List Snippet) :
    (insertSnippet x l).length = l.length + 1 := by
  induction l with
  | nil => rfl
  | cons y ys ih =>
    rw [insertSnippet]
    by_cases h : offsetKey y < offsetKey x
    · rw [if_pos h, List.length_cons, ih, List.length_cons]
    · rw [if_neg h, List.length_cons, List.length_cons]

theorem sortSnippets_length (l : List Snippet) :
    (sortSnippets l).length = l.length := by
  induction l with
  | nil => rfl
  | cons x xs ih =>
    rw [sortSnippets, insertSnippet_length, ih, List.length_cons]

theorem rowJoin (r : Row) (hr : derivedText r ≠ []) :
    joinWith sepTok ((rowMetas r).map (fun m => m.quote)) = rowCombined r := by
  by_cases hs : r.sentences = []
  · by_cases ha : r.abstract = []
    · exfalso
      apply hr
      unfold derivedText
      rw [if_pos hs]
      exact ha
    · unfold rowMetas rowCombined
      rw [if_pos hs, if_neg ha, if_pos hs, if_neg ha]
      rfl
  · unfold rowMetas rowCombined
    rw [if_neg hs, if_neg hs]
    rw [List.map_map]
    rfl

theorem rowMetas_ne_nil (r : Row) (hr : derivedText r ≠ []) :
    rowMetas r ≠ [] := by
  by_cases hs : r.sentences = []
  · by_cases ha : r.abstract = []
    · exfalso
      apply hr
      unfold derivedText
      rw [if_pos hs]
      exact ha
    · unfold rowMetas
      rw [if_pos hs, if_neg ha]
      simp
  · unfold rowMetas
    rw [if_neg hs]
    intro hmap
    have hlen := congrArg List.length hmap
    rw [List.length_map, sortSnippets_length] at hlen
    exact hs (List.length_eq_zero.mp hlen)

theorem rowMetas_quote_norm (r : Row) :
    ∀ m ∈ rowMetas r, ∃ t, m.quote = normalize_snippet_quote t := by
  intro m hm
  unfold rowMetas at hm
  by_cases hs : r.sentences = []
  · rw [if_pos hs] at hm
    by_cases ha : r.abstract = []
    · rw [if_pos ha] at hm
      simp at hm
    · rw [if_neg ha] at hm
      rw [List.mem_singleton] at hm
      subst hm
      exact ⟨r.abstract, rfl⟩
  · rw [if_neg hs] at hm
    obtain ⟨s, -, rfl⟩ := List.mem_map.mp hm
    exact ⟨s.text, rfl⟩

theorem rowMetas_offsets (r : Row) :
    ∀ m ∈ rowMetas r, m.sentence_offsets.isSome = true ∨
      (m.sentence_offsets = none ∧ m.section_title = "abstract".toList ∧
        m.pdf_hash = []) := by
  intro m hm
  unfold rowMetas at hm
  by_cases hs : r.sentences = []
  · rw [if_pos hs] at hm
    by_cases ha : r.abstract = []
    · rw [if_pos ha] at hm
      simp at hm
    · rw [if_neg ha] at hm
      rw [List.mem_singleton] at hm
      subst hm
      exact Or.inr ⟨rfl, rfl, rfl⟩
  · rw [if_neg hs] at hm
    obtain ⟨s, -, rfl⟩ := List.mem_map.mp hm
    exact Or.inl rfl

theorem prepGo_keys (rows : List Row) :
    ∀ refs ppd qmd,
      keysOf refs = keysOf ppd → keysOf ppd = keysOf qmd →
      keysOf (prepGo rows (refs, ppd, qmd)).1 =
          keysOf (prepGo rows (refs, ppd, qmd)).2.1 ∧
        keysOf (prepGo rows (refs, ppd, qmd)).2.1 =
          keysOf (prepGo rows (refs, ppd, qmd)).2.2 := by
  induction rows with
  | nil =>
    intro refs ppd qmd h1 h2
    exact ⟨h1, h2⟩
  | cons r rs ih =>
    intro refs ppd qmd h1 h2
    by_cases hc : containsKey refs r.reference_string = true
    · simp only [prepGo]
      rw [if_pos hc]
      exact ih refs ppd qmd h1 h2
    · by_cases hd : derivedText r = []
      · simp only [prepGo]
        rw [if_neg hc, if_pos hd]
        exact ih refs ppd qmd h1 h2
      · simp only [prepGo]
        rw [if_neg hc, if_neg hd]
        apply ih
        · rw [keysOf_append, keysOf_append, h1]
          rfl
        · rw [keysOf_append, keysOf_append, h2]
          rfl

theorem prepGo_contains (rows : List Row) :
    ∀ refs ppd qmd k,
      containsKey (prepGo rows (refs, ppd, qmd)).1 k = true ↔
        (containsKey refs k = true ∨
          ∃ r ∈ rows, r.reference_string = k ∧ derivedText r ≠ []) := by
  induction rows with
  | nil =>
    intro refs ppd qmd k
    simp [prepGo]
  | cons r rs ih =>
    intro refs ppd qmd k
    by_cases hc : containsKey refs r.reference_string = true
    · simp only [prepGo]
      rw [if_pos hc, ih]
      constructor
      · rintro (h | ⟨r', hr', hk, hdr⟩)
        · exact Or.inl h
        · exact Or.inr ⟨r', List.mem_cons_of_mem _ hr', hk, hdr⟩
      · rintro (h | ⟨r', hr', hk, hdr⟩)
        · exact Or.inl h
        · rcases List.mem_cons.mp hr' with rfl | hmem
          · exact Or.inl (hk ▸ hc)
          · exact Or.inr ⟨r', hmem, hk, hdr⟩
    · by_cases hd : derivedText r = []
      · simp only [prepGo]
        rw [if_neg hc, if_pos hd, ih]
        constructor
        · rintro (h | ⟨r', hr', hk, hdr⟩)
          · exact Or.inl h
          · exact Or.inr ⟨r', List.mem_cons_of_mem _ hr', hk, hdr⟩
        · rintro (h | ⟨r', hr', hk, hdr⟩)
          · exact Or.inl h
          · rcases List.mem_cons.mp hr' with rfl | hmem
            · exact absurd hd hdr
            · exact Or.inr ⟨r', hmem, hk, hdr⟩
      · simp only [prepGo]
        rw [if_neg hc, if_neg hd, ih, containsKey_append_single]
        constructor
        · rintro (hck | ⟨r', hr', hk, hdr⟩)
          · rw [Bool.or_eq_true] at hck
            rcases hck with h | h
            · exact Or.inl h
            · exact Or.inr ⟨r, List.mem_cons_self r rs, of_decide_eq_true h, hd⟩
          · exact Or.inr ⟨r', List.mem_cons_of_mem _ hr', hk, hdr⟩
        · rintro (h | ⟨r', hr', hk, hdr⟩)
          · exact Or.inl (by rw [Bool.or_eq_true]; exact Or.inl h)
          · rcases List.mem_cons.mp hr' with rfl | hmem
            · refine Or.inl ?_
              rw [Bool.or_eq_true]
              exact Or.inr (decide_eq_true hk)
            · exact Or.inr ⟨r', hmem, hk, hdr⟩

theorem prepGo_provenance (rows : List Row) :
    ∀ refs ppd qmd,
      keysOf ppd = keysOf qmd →
      (∀ k pp l, lookupA ppd k = some pp → lookupA qmd k = some l →
        ∃ r : Row, derivedText r ≠ [] ∧
          pp = { quote := rowCombined r, inline_citations := [] } ∧
          l = rowMetas r) →
      ∀ k pp l,
        lookupA (prepGo rows (refs, ppd, qmd)).2.1 k = some pp →
        lookupA (prepGo rows (refs, ppd, qmd)).2.2 k = some l →
        ∃ r : Row, derivedText r ≠ [] ∧
          pp = { quote := rowCombined r, inline_citations := [] } ∧
          l = rowMetas r := by
  induction rows with
  | nil =>
    intro refs ppd qmd _ hinv
    exact hinv
  | cons r rs ih =>
    intro refs ppd qmd hal hinv
    by_cases hc : containsKey refs r.reference_string = true
    · simp only [prepGo]
      rw [if_pos hc]
      exact ih refs ppd qmd hal hinv
    · by_cases hd : derivedText r = []
      · simp only [prepGo]
        rw [if_neg hc, if_pos hd]
        exact ih refs ppd qmd hal hinv
      · simp only [prepGo]
        rw [if_neg hc, if_neg hd]
        apply ih
        · rw [keysOf_append, keysOf_append, hal]
          rfl
        · intro k pp l hp hq
          rw [lookupA_append] at hp hq
          cases hpp : lookupA ppd k with
          | some v =>
            rw [hpp] at hp
            have hpv : v = pp := by simpa [Option.or] using hp
            have heq := containsKey_eq_of_keysOf_eq ppd qmd hal k
            unfold containsKey at heq
            rw [hpp] at heq
            cases hql : lookupA qmd k with
            | none =>
              rw [hql] at heq
              simp at heq
            | some w =>
              rw [hql] at hq
              have hqw : w = l := by simpa [Option.or] using hq
              subst hpv
              subst hqw
              exact hinv k v w hpp hql
          | none =>
            rw [hpp] at hp
            simp only [Option.or] at hp
            rw [lookupA_cons] at hp
            by_cases hk : r.reference_string = k
            · rw [if_pos hk] at hp
              have hpv := Option.some.inj hp
              have hqnone : lookupA qmd k = none := by
                have heq := containsKey_eq_of_keysOf_eq ppd qmd hal k
                unfold containsKey at heq
                rw [hpp] at heq
                cases hql : lookupA qmd k with
                | none => rfl
                | some w =>
                  rw [hql] at heq
                  simp at heq
              rw [hqnone] at hq
              simp only [Option.or] at hq
              rw [lookupA_cons, if_pos hk] at hq
              have hqv := Option.some.inj hq
              exact ⟨r, hd, hpv.symm, hqv.symm⟩
            · rw [if_neg hk, lookupA_nil] at hp
              exact absurd hp (by simp)

/-- Claim C7: for every input table the three mappings returned by
`prepare_references_data` have identical key sets, and a reference key is
present exactly when some row carries it and derives non-empty text (from
snippets or the abstract fallback). -/
theorem claim_C7 (rows : List Row) :
    keysOf (prepare_references_data rows).1 =
        keysOf (prepare_references_data rows).2.1 ∧
      keysOf (prepare_references_data rows).2.1 =
        keysOf (prepare_references_data rows).2.2 ∧
      ∀ k, containsKey (prepare_references_data rows).1 k = true ↔
        ∃ r ∈ rows, r.reference_string = k ∧ derivedText r ≠ [] := by
  refine ⟨(prepGo_keys rows [] [] [] rfl rfl).1,
    (prepGo_keys rows [] [] [] rfl rfl).2, ?_⟩
  intro k
  show containsKey (prepGo rows ([], [], [])).1 k = true ↔ _
  rw [prepGo_contains rows [] [] [] k]
  simp [containsKey, lookupA_nil]

/-- Claim C6 (counterexample): when a snippet's normalized quote contains
the separator itself (snippet text `"a...b"`), the join equality still
holds, but the combined quote cannot be re-split into the constituent
quotes: it splits into `["a", "b"]`, not `["a...b"]`. -/
theorem claim_C6_counterexample :
    lookupA (prepare_references_data
        [{ reference_string := "[3 | Roe | 2019 | Citations: 1]".toList
         , sentences := [{ text := "a...b".toList, char_offset := some 0 }]
         , abstract := [] }]).2.1 ("[3 | Roe | 2019 | Citations: 1]".toList) =
      some { quote := "a...b".toList, inline_citations := [] } ∧
    (prepare_references_data
        [{ reference_string := "[3 | Roe | 2019 | Citations: 1]".toList
         , sentences := [{ text := "a...b".toList, char_offset := some 0 }]
         , abstract := [] }]).2.2.map
        (fun kv => kv.2.map (fun m => m.quote)) = [["a...b".toList]] ∧
    splitDots ("a...b".toList) ≠ ["a...b".toList] := by
  refine ⟨by decide, by decide, by decide⟩

/-- Claim C6 (amended): for every input table and emitted reference key,
the ordered `quote` fields of the key's quotes-metadata entries joined
with the 3-character separator equal exactly the per-paper record's
combined quote; when additionally none of those quotes contains the
separator, splitting the combined quote on the separator recovers the
quote list (without that proviso the re-split can be ambiguous, as the
counterexample shows). -/
theorem claim_C6 (rows : List Row) (k : List Char) (pp : PerPaper)
    (l : List QuoteMeta)
    (hp : lookupA (prepare_references_data rows).2.1 k = some pp)
    (hq : lookupA (prepare_references_data rows).2.2 k = some l) :
    joinWith sepTok (l.map (fun m => m.quote)) = pp.quote ∧
      ((∀ q ∈ l.map (fun m => m.quote), hasSub sepTok q = false) →
        splitDots pp.quote = l.map (fun m => m.quote)) := by
  obtain ⟨r, hr, hpEq, hlEq⟩ :=
    prepGo_provenance rows [] [] [] rfl
      (by
        intro k' pp' l' h1 _
        rw [lookupA_nil] at h1
        exact absurd h1 (by simp))
      k pp l hp hq
  subst hpEq
  subst hlEq
  refine ⟨rowJoin r hr, ?_⟩
  intro hns
  show splitDots (rowCombined r) = (rowMetas r).map (fun m => m.quote)
  rw [← rowJoin r hr]
  apply splitDots_joinWith
  · intro hmap
    exact rowMetas_ne_nil r hr (List.map_eq_nil_iff.mp hmap)
  · intro q hqm
    refine ⟨hns q hqm, ?_⟩
    obtain ⟨m, hm, rfl⟩ := List.mem_map.mp hqm
    obtain ⟨t, ht⟩ := rowMetas_quote_norm r m hm
    rw [ht]
    exact normalize_endsDot t

/-- Witness for claim C6 at a one-row table with two plain snippets. -/
theorem claim_C6_witness :
    lookupA (prepare_references_data
        [{ reference_string := "[9 | Poe | 2018 | Citations: 2]".toList
         , sentences := [{ text := "One.".toList, char_offset := some 1 },
                         { text := "Two.".toList, char_offset := some 9 }]
         , abstract := [] }]).2.1 ("[9 | Poe | 2018 | Citations: 2]".toList) =
      some { quote := "One...Two".toList, inline_citations := [] } ∧
    lookupA (prepare_references_data
        [{ reference_string := "[9 | Poe | 2018 | Citations: 2]".toList
         , sentences := [{ text := "One.".toList, char_offset := some 1 },
                         { text := "Two.".toList, char_offset := some 9 }]
         , abstract := [] }]).2.2 ("[9 | Poe | 2018 | Citations: 2]".toList) =
      some [{ quote := "One".toList, section_title := "abstract".toList
            , pdf_hash := [], sentence_offsets := some [] },
            { quote := "Two".toList, section_title := "abstract".toList
            , pdf_hash := [], sentence_offsets := some [] }] ∧
    joinWith sepTok
        (([{ quote := "One".toList, section_title := "abstract".toList
           , pdf_hash := [], sentence_offsets := some [] },
           { quote := "Two".toList, section_title := "abstract".toList
           , pdf_hash := [], sentence_offsets := some [] }] :
            List QuoteMeta).map (fun m => m.quote)) =
      (PerPaper.mk ("One...Two".toList) []).quote :=
  ⟨by decide, by decide,
    (claim_C6
      [{ reference_string := "[9 | Poe | 2018 | Citations: 2]".toList
       , sentences := [{ text := "One.".toList, char_offset := some 1 },
                       { text := "Two.".toList, char_offset := some 9 }]
       , abstract := [] }]
      ("[9 | Poe | 2018 | Citations: 2]".toList)
      (PerPaper.mk ("One...Two".toList) [])
      [{ quote := "One".toList, section_title := "abstract".toList
       , pdf_hash := [], sentence_offsets := some [] },
       { quote := "Two".toList, section_title := "abstract".toList
       , pdf_hash := [], sentence_offsets := some [] }]
      (by decide) (by decide)).1⟩

/-- Claim C8: the end-to-end aggregator scenario — one row with reference
string `[1 | Doe | 2020 | Citations: 5]` and snippets `"A."` at offset 5
and `"B."` at offset 1.  The snippets are sorted ascending by
`char_offset` (a missing offset sorts as 0; ties keep input order), the
reference text is `"B. A."` and the combined quote is `"B...A"`. -/
theorem claim_C8 :
    sortSnippets [{ text := "A.".toList, char_offset := some 5 },
                  { text := "B.".toList, char_offset := some 1 }] =
      [{ text := "B.".toList, char_offset := some 1 },
       { text := "A.".toList, char_offset := some 5 }] ∧
    offsetKey { text := "C.".toList } = 0 ∧
    sortSnippets [{ text := "X.".toList, char_offset := some 1 },
                  { text := "Y.".toList }] =
      [{ text := "Y.".toList },
       { text := "X.".toList, char_offset := some 1 }] ∧
    sortSnippets [{ text := "X.".toList, char_offset := some 1 },
                  { text := "Y.".toList, char_offset := some 1 }] =
      [{ text := "X.".toList, char_offset := some 1 },
       { text := "Y.".toList, char_offset := some 1 }] ∧
    lookupA (prepare_references_data
        [{ reference_string := "[1 | Doe | 2020 | Citations: 5]".toList
         , sentences := [{ text := "A.".toList, char_offset := some 5 },
                         { text := "B.".toList, char_offset := some 1 }]
         , abstract := [] }]).1 ("[1 | Doe | 2020 | Citations: 5]".toList) =
      some ("B. A.".toList) ∧
    lookupA (prepare_references_data
        [{ reference_string := "[1 | Doe | 2020 | Citations: 5]".toList
         , sentences := [{ text := "A.".toList, char_offset := some 5 },
                         { text := "B.".toList, char_offset := some 1 }]
         , abstract := [] }]).2.1 ("[1 | Doe | 2020 | Citations: 5]".toList) =
      some { quote := "B...A".toList, inline_citations := [] } := by
  refine ⟨by decide, by decide, by decide, by decide, by decide, by decide⟩

/-- Claim C9 (counterexample): not every quotes-metadata entry carries a
`sentence_offsets` field — the abstract-fallback branch builds its entry
without it (modelled as `none`), so the universal four-field claim is
false. -/
theorem claim_C9_counterexample :
    ¬ ∀ (rows : List Row) (k : List Char) (l : List QuoteMeta),
        lookupA (prepare_references_data rows).2.2 k = some l →
        ∀ m ∈ l, m.sentence_offsets.isSome = true := by
  intro h
  have hm := h
    [{ reference_string := "[2 | X | 2021 | Citations: 0]".toList
     , sentences := [], abstract := "Some abstract".toList }]
    ("[2 | X | 2021 | Citations: 0]".toList)
    [{ quote := "Some abstract".toList, section_title := "abstract".toList
     , pdf_hash := [], sentence_offsets := none }]
    (by decide)
    { quote := "Some abstract".toList, section_title := "abstract".toList
    , pdf_hash := [], sentence_offsets := none }
    (by decide)
  simp at hm

/-- Claim C9 (amended): every entry of every list in the quotes-metadata
mapping carries `quote`, `section_title` and `pdf_hash`; an entry either
also carries `sentence_offsets` (always the case for snippet-branch
entries) or is an abstract-fallback entry, which lacks `sentence_offsets`
and has section title `abstract` and empty pdf hash. -/
theorem claim_C9 (rows : List Row) (k : List Char) (l : List QuoteMeta)
    (hq : lookupA (prepare_references_data rows).2.2 k = some l) :
    ∀ m ∈ l, m.sentence_offsets.isSome = true ∨
      (m.sentence_offsets = none ∧ m.section_title = "abstract".toList ∧
        m.pdf_hash = []) := by
  have hkeys := (prepGo_keys rows [] [] [] rfl rfl).2
  have hck := containsKey_eq_of_keysOf_eq _ _ hkeys k
  unfold containsKey at hck
  rw [show (prepare_references_data rows).2.2 = (prepGo rows ([], [], [])).2.2
    from rfl] at hq
  rw [hq] at hck
  cases hp : lookupA (prepGo rows ([], [], [])).2.1 k with
  | none =>
    rw [hp] at hck
    simp at hck
  | some pp =>
    obtain ⟨r, hr, -, hlEq⟩ :=
      prepGo_provenance rows [] [] [] rfl
        (by
          intro k' pp' l' h1 _
          rw [lookupA_nil] at h1
          exact absurd h1 (by simp))
        k pp l hp hq
    subst hlEq
    exact rowMetas_offsets r

/-- Witness for claim C9 at the abstract-fallback row used in the
counterexample (the emitted entry falls in the fallback disjunct). -/
theorem claim_C9_witness :
    lookupA (prepare_references_data
        [{ reference_string := "[2 | X | 2021 | Citations: 0]".toList
         , sentences := [], abstract := "Some abstract".toList }]).2.2
      ("[2 | X | 2021 | Citations: 0]".toList) =
      some [{ quote := "Some abstract".toList
            , section_title := "abstract".toList
            , pdf_hash := [], sentence_offsets := none }] ∧
    ((QuoteMeta.mk ("Some abstract".toList) ("abstract".toList) []
        none).sentence_offsets.isSome = true ∨
      ((QuoteMeta.mk ("Some abstract".toList) ("abstract".toList) []
          none).sentence_offsets = none ∧
        (QuoteMeta.mk ("Some abstract".toList) ("abstract".toList) []
          none).section_title = "abstract".toList ∧
        (QuoteMeta.mk ("Some abstract".toList) ("abstract".toList) []
          none).pdf_hash = [])) :=
  ⟨by decide,
    claim_C9
      [{ reference_string := "[2 | X | 2021 | Citations: 0]".toList
       , sentences := [], abstract := "Some abstract".toList }]
      ("[2 | X | 2021 | Citations: 0]".toList)
      [{ quote := "Some abstract".toList, section_title := "abstract".toList
       , pdf_hash := [], sentence_offsets := none }]
      (by decide)
      (QuoteMeta.mk ("Some abstract".toList) ("abstract".toList) [] none)
      (by decide)⟩

theorem emitP_cons_none {ppd : List (List Char × PerPaper)} {c : Citation}
    (l : List Citation) (h : lookupA ppd (citationKey c) = none) :
    emitP ppd (c :: l) = emitP ppd l := by
  unfold emitP
  rw [List.filterMap_cons_none]
  rw [h]
  rfl

theorem emitP_cons_some {ppd : List (List Char × PerPaper)} {c : Citation}
    {v : PerPaper} (l : List Citation)
    (h : lookupA ppd (citationKey c) = some v) :
    emitP ppd (c :: l) = (citationKey c, v) :: emitP ppd l := by
  unfold emitP
  rw [List.filterMap_cons_some]
  rw [h]
  rfl

theorem emitQ_cons_none {ppd : List (List Char × PerPaper)}
    {qmd : List (List Char × List QuoteMeta)} {c : Citation}
    (l : List Citation) (h : lookupA ppd (citationKey c) = none) :
    emitQ ppd qmd (c :: l) = emitQ ppd qmd l := by
  unfold emitQ
  rw [List.filterMap_cons_none]
  rw [h]

theorem emitQ_cons_some {ppd : List (List Char × PerPaper)}
    {qmd : List (List Char × List QuoteMeta)} {c : Citation} {v : PerPaper}
    {w : List QuoteMeta} (l : List Citation)
    (hp : lookupA ppd (citationKey c) = some v)
    (hq : lookupA qmd (citationKey c) = some w) :
    emitQ ppd qmd (c :: l) = (citationKey c, w) :: emitQ ppd qmd l := by
  unfold emitQ
  rw [List.filterMap_cons_some]
  rw [hp, hq]
  rfl

theorem filterLoop_eq (ppd : List (List Char × PerPaper))
    (qmd : List (List Char × List QuoteMeta))
    (hk : ∀ k, (lookupA ppd k).isSome = (lookupA qmd k).isSome)
    (cits : List Citation) :
    ∀ (seen : List (List Char)) (o1 : List (List Char × PerPaper))
      (o2 : List (List Char × List QuoteMeta)),
      filterLoop ppd qmd cits seen o1 o2 =
        some (o1 ++ emitP ppd (dedupSeen cits seen),
              o2 ++ emitQ ppd qmd (dedupSeen cits seen)) := by
  induction cits with
  | nil =>
    intro seen o1 o2
    simp [filterLoop, dedupSeen, emitP, emitQ]
  | cons c rest ih =>
    intro seen o1 o2
    by_cases hs : seen.contains c.cid = true
    · simp only [filterLoop, if_pos hs, dedupSeen]
      exact ih seen o1 o2
    · cases hp : lookupA ppd (citationKey c) with
      | none =>
        simp only [filterLoop, if_neg hs, dedupSeen, hp]
        rw [emitP_cons_none _ hp, emitQ_cons_none _ hp]
        exact ih (c.cid :: seen) o1 o2
      | some v =>
        have hsome : (lookupA qmd (citationKey c)).isSome = true := by
          rw [← hk, hp]
          rfl
        cases hq : lookupA qmd (citationKey c) with
        | none =>
          rw [hq] at hsome
          simp at hsome
        | some w =>
          simp only [filterLoop, if_neg hs, dedupSeen, hp, hq]
          rw [emitP_cons_some _ hp, emitQ_cons_some _ hp hq]
          rw [ih (c.cid :: seen) (o1 ++ [(citationKey c, v)])
            (o2 ++ [(citationKey c, w)])]
          simp [List.append_assoc]

theorem emitP_keys_eq_emitQ_keys (ppd : List (List Char × PerPaper))
    (qmd : List (List Char × List QuoteMeta))
    (hk : ∀ k, (lookupA ppd k).isSome = (lookupA qmd k).isSome)
    (l : List Citation) :
    keysOf (emitP ppd l) = keysOf (emitQ ppd qmd l) := by
  induction l with
  | nil => rfl
  | cons c rest ih =>
    cases hp : lookupA ppd (citationKey c) with
    | none =>
      rw [emitP_cons_none _ hp, emitQ_cons_none _ hp]
      exact ih
    | some v =>
      have hsome : (lookupA qmd (citationKey c)).isSome = true := by
        rw [← hk, hp]
        rfl
      cases hq : lookupA qmd (citationKey c) with
      | none =>
        rw [hq] at hsome
        simp at hsome
      | some w =>
        rw [emitP_cons_some _ hp, emitQ_cons_some _ hp hq]
        unfold keysOf
        rw [List.map_cons, List.map_cons]
        unfold keysOf at ih
        rw [ih]

theorem emitP_mem_lookup (ppd : List (List Char × PerPaper))
    (l : List Citation) :
    ∀ k v, (k, v) ∈ emitP ppd l → lookupA ppd k = some v := by
  induction l with
  | nil => intro k v h; simp [emitP] at h
  | cons c rest ih =>
    intro k v h
    cases hp : lookupA ppd (citationKey c) with
    | none =>
      rw [emitP_cons_none _ hp] at h
      exact ih k v h
    | some v0 =>
      rw [emitP_cons_some _ hp] at h
      rcases List.mem_cons.mp h with heq | hmem
      · obtain ⟨hk1, hv1⟩ := Prod.mk.injEq .. ▸ heq
        subst hk1
        subst hv1
        exact hp
      · exact ih k v hmem

theorem emitQ_mem_lookup (ppd : List (List Char × PerPaper))
    (qmd : List (List Char × List QuoteMeta)) (l : List Citation) :
    ∀ k w, (k, w) ∈ emitQ ppd qmd l → lookupA qmd k = some w := by
  induction l with
  | nil => intro k w h; simp [emitQ] at h
  | cons c rest ih =>
    intro k w h
    cases hp : lookupA ppd (citationKey c) with
    | none =>
      rw [emitQ_cons_none _ hp] at h
      exact ih k w h
    | some v0 =>
      cases hq : lookupA qmd (citationKey c) with
      | none =>
        unfold emitQ at h
        rw [List.filterMap_cons_none] at h
        · exact ih k w h
        · rw [hp, hq]
          rfl
      | some w0 =>
        rw [emitQ_cons_some _ hp hq] at h
        rcases List.mem_cons.mp h with heq | hmem
        · obtain ⟨hk1, hw1⟩ := Prod.mk.injEq .. ▸ heq
          subst hk1
          subst hw1
          exact hq
        · exact ih k w hmem

theorem emitP_keys_filter (ppd : List (List Char × PerPaper))
    (l : List Citation) :
    keysOf (emitP ppd l) =
      (l.map citationKey).filter (fun k2 => containsKey ppd k2) := by
  induction l with
  | nil => rfl
  | cons c rest ih =>
    rw [List.map_cons]
    cases hp : lookupA ppd (citationKey c) with
    | none =>
      rw [emitP_cons_none _ hp, List.filter_cons]
      rw [show containsKey ppd (citationKey c) = false from by
        unfold containsKey; rw [hp]; rfl]
      simpa using ih
    | some v =>
      rw [emitP_cons_some _ hp, List.filter_cons]
      rw [show containsKey ppd (citationKey c) = true from by
        unfold containsKey; rw [hp]; rfl]
      simp only [if_true]
      unfold keysOf
      rw [List.map_cons]
      unfold keysOf at ih
      rw [ih]

/-- Claim C3: citation reconciliation.  For every list of section texts
and every pair of input maps with identical key sets,
`filter_per_paper_summaries` returns without error a pair of maps built
from the citation tokens deduplicated by their numeric id component
(first occurrence winning, per `dedupSeen`); the two outputs share
identical key sets, every output key is present in the corresponding
input map, every copied entry equals the input entry for its rebuilt
canonical key, and the output keys are exactly the rebuilt keys found in
`per_paper_data` — citations whose key is not found are silently
dropped. -/
theorem claim_C3 (texts : List (List Char))
    (ppd : List (List Char × PerPaper))
    (qmd : List (List Char × List QuoteMeta))
    (hk : ∀ k, (lookupA ppd k).isSome = (lookupA qmd k).isSome) :
    ∃ o1 o2,
      filter_per_paper_summaries texts ppd qmd = some (o1, o2) ∧
      o1 = emitP ppd
        (dedupSeen (findAllCitations (joinWith ['\n'] texts)) []) ∧
      o2 = emitQ ppd qmd
        (dedupSeen (findAllCitations (joinWith ['\n'] texts)) []) ∧
      keysOf o1 = keysOf o2 ∧
      (∀ k, k ∈ keysOf o1 → containsKey ppd k = true) ∧
      (∀ k, k ∈ keysOf o2 → containsKey qmd k = true) ∧
      (∀ k v, (k, v) ∈ o1 → lookupA ppd k = some v) ∧
      (∀ k w, (k, w) ∈ o2 → lookupA qmd k = some w) ∧
      keysOf o1 =
        ((dedupSeen (findAllCitations (joinWith ['\n'] texts)) []).map
          citationKey).filter (fun k2 => containsKey ppd k2) := by
  refine ⟨emitP ppd (dedupSeen (findAllCitations (joinWith ['\n'] texts)) []),
    emitQ ppd qmd (dedupSeen (findAllCitations (joinWith ['\n'] texts)) []),
    ?_, rfl, rfl, ?_, ?_, ?_, ?_, ?_, ?_⟩
  · unfold filter_per_paper_summaries
    rw [filterLoop_eq ppd qmd hk _ [] [] []]
    simp
  · exact emitP_keys_eq_emitQ_keys ppd qmd hk _
  · intro k hkm
    unfold keysOf at hkm
    obtain ⟨kv, hmem, hfst⟩ := List.mem_map.mp hkm
    obtain ⟨k', v⟩ := kv
    simp only at hfst
    subst hfst
    unfold containsKey
    rw [emitP_mem_lookup ppd _ k' v hmem]
    rfl
  · intro k hkm
    unfold keysOf at hkm
    obtain ⟨kv, hmem, hfst⟩ := List.mem_map.mp hkm
    obtain ⟨k', w⟩ := kv
    simp only at hfst
    subst hfst
    unfold containsKey
    rw [emitQ_mem_lookup ppd qmd _ k' w hmem]
    rfl
  · exact emitP_mem_lookup ppd _
  · exact emitQ_mem_lookup ppd qmd _
  · exact emitP_keys_filter ppd _

/-- Witness for claim C3 at a concrete section text containing one known
citation and one unknown citation, over one-entry input maps. -/
theorem claim_C3_witness :
    (∀ k, (lookupA [("[1 | Doe | 2020 | Citations: 5]".toList,
          PerPaper.mk ("Q".toList) [])] k).isSome =
        (lookupA [("[1 | Doe | 2020 | Citations: 5]".toList,
          ([] : List QuoteMeta))] k).isSome) ∧
    ∃ o1 o2,
      filter_per_paper_summaries
          ["See [1 | Doe | 2020 | Citations: 5] and [99 | No | 2021 | Citations: 1].".toList]
          [("[1 | Doe | 2020 | Citations: 5]".toList,
            PerPaper.mk ("Q".toList) [])]
          [("[1 | Doe | 2020 | Citations: 5]".toList,
            ([] : List QuoteMeta))] = some (o1, o2) ∧
      o1 = emitP
        [("[1 | Doe | 2020 | Citations: 5]".toList, PerPaper.mk ("Q".toList) [])]
        (dedupSeen (findAllCitations (joinWith ['\n']
          ["See [1 | Doe | 2020 | Citations: 5] and [99 | No | 2021 | Citations: 1].".toList]))
          []) ∧
      o2 = emitQ
        [("[1 | Doe | 2020 | Citations: 5]".toList, PerPaper.mk ("Q".toList) [])]
        [("[1 | Doe | 2020 | Citations: 5]".toList, ([] : List QuoteMeta))]
        (dedupSeen (findAllCitations (joinWith ['\n']
          ["See [1 | Doe | 2020 | Citations: 5] and [99 | No | 2021 | Citations: 1].".toList]))
          []) ∧
      keysOf o1 = keysOf o2 ∧
      (∀ k, k ∈ keysOf o1 →
        containsKey [("[1 | Doe | 2020 | Citations: 5]".toList,
          PerPaper.mk ("Q".toList) [])] k = true) ∧
      (∀ k, k ∈ keysOf o2 →
        containsKey [("[1 | Doe | 2020 | Citations: 5]".toList,
          ([] : List QuoteMeta))] k = true) ∧
      (∀ k v, (k, v) ∈ o1 →
        lookupA [("[1 | Doe | 2020 | Citations: 5]".toList,
          PerPaper.mk ("Q".toList) [])] k = some v) ∧
      (∀ k w, (k, w) ∈ o2 →
        lookupA [("[1 | Doe | 2020 | Citations: 5]".toList,
          ([] : List QuoteMeta))] k = some w) ∧
      keysOf o1 =
        ((dedupSeen (findAllCitations (joinWith ['\n']
            ["See [1 | Doe | 2020 | Citations: 5] and [99 | No | 2021 | Citations: 1].".toList]))
            []).map citationKey).filter
          (fun k2 => containsKey
            [("[1 | Doe | 2020 | Citations: 5]".toList,
              PerPaper.mk ("Q".toList) [])] k2) := by
  have hk : ∀ k, (lookupA [("[1 | Doe | 2020 | Citations: 5]".toList,
        PerPaper.mk ("Q".toList) [])] k).isSome =
      (lookupA [("[1 | Doe | 2020 | Citations: 5]".toList,
        ([] : List QuoteMeta))] k).isSome := by
    intro k
    rw [lookupA_cons, lookupA_cons]
    by_cases h : ("[1 | Doe | 2020 | Citations: 5]".toList : List Char) = k
    · rw [if_pos h, if_pos h]
      rfl
    · rw [if_neg h, if_neg h]
      rfl
  exact ⟨hk, claim_C3 _ _ _ hk⟩
